import Mathlib

/-!
Verification of the protodump scanner and renderer.

This file gives a shallow embedding of the Go sources
`pkg/protodump/scan.go` and `pkg/protodump/proto.go`, together with the
wire-format primitives of `google.golang.org/protobuf/encoding/protowire`
that `scan.go` calls (`ConsumeVarint`, `ConsumeTag`, `ConsumeFieldValue`,
`ConsumeBytes`, `ConsumeField`).  Byte buffers are modelled as `List Nat`
(each entry a byte value), Go's 64-bit unsigned arithmetic as `Nat` with
explicit `% 2 ^ 64`, and Go's signed-`int` view of an unsigned value via an
explicit cast `intCast64`.  Fallible Go functions returning a negative
length code are modelled with `Except WireError`.
-/

/-- Error codes of the protowire package (`errCodeTruncated`,
`errCodeFieldNumber`, `errCodeOverflow`, `errCodeReserved`,
`errCodeEndGroup`, `errCodeRecursionDepth`).  `consumeBytes` in `scan.go`
distinguishes the `fieldNumber` code (whose message is
"invalid field number") from all others. -/
inductive WireError where
  | truncated
  | fieldNumber
  | overflow
  | reserved
  | endGroup
  | recursionDepth
deriving DecidableEq, Repr

/-- Accumulating loop of protowire's `ConsumeVarint`: `i` is the index of
the byte about to be read, `acc` the value contributed by earlier bytes.
Go reads up to 10 bytes; the 10th byte (index 9) must be `< 2`, otherwise
the varint overflows; a byte `< 0x80` terminates; a missing byte is a
truncation error.  Go accumulates into a `uint64`, hence the `% 2 ^ 64`. -/
def consumeVarintAux : List Nat → Nat → Nat → Except WireError (Nat × Nat)
  | [], _, _ => .error .truncated
  | y :: rest, i, acc =>
    if i = 9 then
      if y < 2 then .ok ((acc + y * 2 ^ 63) % 2 ^ 64, 10) else .error .overflow
    else if y < 0x80 then .ok ((acc + y * 2 ^ (7 * i)) % 2 ^ 64, i + 1)
    else consumeVarintAux rest (i + 1) (acc + (y - 0x80) * 2 ^ (7 * i))

/-- protowire `ConsumeVarint`: decoded value and number of bytes read. -/
def consumeVarint (b : List Nat) : Except WireError (Nat × Nat) :=
  consumeVarintAux b 0 0

/-- protowire `ConsumeTag`: `DecodeTag` maps a varint `x` to field number
`x >> 3` (or `-1` when `x >> 3` exceeds `MaxInt32`) and type `x & 7`;
a field number `< 1` is the `errCodeFieldNumber` error. -/
def consumeTag (b : List Nat) : Except WireError (Nat × Nat × Nat) :=
  match consumeVarint b with
  | .error e => .error e
  | .ok (v, n) =>
    if 2 ^ 31 - 1 < v >>> 3 then .error .fieldNumber
    else if v >>> 3 < 1 then .error .fieldNumber
    else .ok (v >>> 3, v &&& 7, n)

/-- protowire `ConsumeBytes` (length only): a varint length `m` followed by
`m` bytes; truncated when fewer than `m` bytes remain. -/
def consumeBytesWire (b : List Nat) : Except WireError Nat :=
  match consumeVarint b with
  | .error e => .error e
  | .ok (m, n) => if b.length - n < m then .error .truncated else .ok (n + m)

/-- Recursion limit of protowire's `consumeFieldValueD`.  Go starts at
`DefaultRecursionLimit = 10000` and errors when the depth goes below zero;
our `Nat` depth errors at zero, so the model starts one higher. -/
def defaultRecursionLimit : Nat := 10001

theorem consumeVarintAux_ok_bounds {b : List Nat} {i acc v n : Nat}
    (h : consumeVarintAux b i acc = .ok (v, n)) :
    i + 1 ≤ n ∧ n ≤ i + b.length := by
  induction b generalizing i acc with
  | nil => simp [consumeVarintAux] at h
  | cons y rest ih =>
    simp only [consumeVarintAux] at h
    split at h
    · split at h
      · simp only [Except.ok.injEq, Prod.mk.injEq] at h
        obtain ⟨-, h2⟩ := h
        simp only [List.length_cons]
        omega
      · simp at h
    · split at h
      · simp only [Except.ok.injEq, Prod.mk.injEq] at h
        obtain ⟨_, rfl⟩ := h
        simp only [List.length_cons]
        omega
      · have := ih h
        simp only [List.length_cons]
        omega

theorem consumeVarint_ok_bounds {b : List Nat} {v n : Nat}
    (h : consumeVarint b = .ok (v, n)) : 1 ≤ n ∧ n ≤ b.length := by
  have := consumeVarintAux_ok_bounds h
  omega

theorem consumeTag_ok_bounds {b : List Nat} {num typ n : Nat}
    (h : consumeTag b = .ok (num, typ, n)) : 1 ≤ n ∧ n ≤ b.length := by
  unfold consumeTag at h
  split at h
  · exact absurd h (by simp)
  next v m hv =>
    split at h
    · exact absurd h (by simp)
    · split at h
      · exact absurd h (by simp)
      · simp only [Except.ok.injEq, Prod.mk.injEq] at h
        obtain ⟨-, -, rfl⟩ := h
        exact consumeVarint_ok_bounds hv

mutual

/-- protowire `consumeFieldValueD`: length of one field value of wire type
`typ` (0 varint, 1 fixed64, 2 length-delimited, 3 group start, 4 group end,
5 fixed32; others are the reserved-type error). -/
def consumeFieldValue (num typ : Nat) (b : List Nat) (depth : Nat) :
    Except WireError Nat :=
  if typ = 0 then
    match consumeVarint b with
    | .error e => .error e
    | .ok (_, n) => .ok n
  else if typ = 5 then
    if b.length < 4 then .error .truncated else .ok 4
  else if typ = 1 then
    if b.length < 8 then .error .truncated else .ok 8
  else if typ = 2 then
    consumeBytesWire b
  else if typ = 3 then
    match depth with
    | 0 => .error .recursionDepth
    | d + 1 => consumeGroup num b d
  else if typ = 4 then .error .endGroup
  else .error .reserved
termination_by depth + b.length
decreasing_by
simp_wf
all_goals omega

/-- The loop inside `consumeFieldValueD`'s group-start case: consume tagged
fields until the matching group-end tag, returning the total byte count. -/
def consumeGroup (num : Nat) (b : List Nat) (depth : Nat) :
    Except WireError Nat :=
  match h : consumeTag b with
  | .error e => .error e
  | .ok (num2, typ2, n) =>
    if typ2 = 4 then
      if num ≠ num2 then .error .endGroup else .ok n
    else
      match consumeFieldValue num2 typ2 (b.drop n) depth with
      | .error e => .error e
      | .ok m =>
        match consumeGroup num (b.drop (n + m)) depth with
        | .error e => .error e
        | .ok k => .ok (n + m + k)
termination_by depth + b.length
decreasing_by
all_goals simp_wf
all_goals have := consumeTag_ok_bounds h
all_goals try simp only [List.length_drop]
all_goals omega

end

/-- protowire `ConsumeField`: a tag followed by its value. -/
def consumeField (b : List Nat) : Except WireError (Nat × Nat × Nat) :=
  match consumeTag b with
  | .error e => .error e
  | .ok (num, typ, n) =>
    match consumeFieldValue num typ (b.drop n) defaultRecursionLimit with
    | .error e => .error e
    | .ok m => .ok (num, typ, n + m)

theorem consumeField_ok_pos {b : List Nat} {num typ len : Nat}
    (h : consumeField b = .ok (num, typ, len)) : 1 ≤ len := by
  unfold consumeField at h
  split at h
  · exact absurd h (by simp)
  next num' typ' n htag =>
    split at h
    · exact absurd h (by simp)
    · simp only [Except.ok.injEq, Prod.mk.injEq] at h
      obtain ⟨-, -, rfl⟩ := h
      have := consumeTag_ok_bounds htag
      omega

theorem consumeVarintAux_error_kinds {b : List Nat} {i acc : Nat} {e : WireError}
    (h : consumeVarintAux b i acc = .error e) : e = .truncated ∨ e = .overflow := by
  induction b generalizing i acc with
  | nil =>
    simp only [consumeVarintAux, Except.error.injEq] at h
    exact Or.inl h.symm
  | cons y rest ih =>
    simp only [consumeVarintAux] at h
    split at h
    · split at h
      · simp at h
      · simp only [Except.error.injEq] at h
        exact Or.inr h.symm
    · split at h
      · simp at h
      · exact ih h

theorem consumeVarint_error_kinds {b : List Nat} {e : WireError}
    (h : consumeVarint b = .error e) : e = .truncated ∨ e = .overflow :=
  consumeVarintAux_error_kinds h

theorem consumeBytesWire_error_kinds {b : List Nat} {e : WireError}
    (h : consumeBytesWire b = .error e) : e = .truncated ∨ e = .overflow := by
  unfold consumeBytesWire at h
  split at h
  next e' he =>
    simp only [Except.error.injEq] at h
    subst h
    exact consumeVarint_error_kinds he
  · split at h
    · simp only [Except.error.injEq] at h
      exact Or.inl h.symm
    · simp at h

/-- Loop of scan.go `consumeBytes`: `start` is the fixed start offset,
`pos` the current read position, `c1` the `consumedFieldOne` flag.
Stops with `.ok` on the "invalid field number" decode error, on a
zero-length consumption step, on a recurrence of field number 1 (before
consuming it), and after consuming up to or past the end of the buffer
(Go: `position-start >= len(data[start:])`, i.e. `data.length - start`);
any other decode error is returned as an error. -/
def consumeBytesLoop (data : List Nat) (start pos : Nat) (c1 : Bool) :
    Except WireError Nat :=
  match consumeField (data.drop pos) with
  | .error e => if e = .fieldNumber then .ok (pos - start) else .error e
  | .ok (number, _typ, length) =>
    if h0 : length = 0 then .ok (pos - start)
    else if number = 1 ∧ c1 = true then .ok (pos - start)
    else if hb : data.length - start ≤ pos + length - start then
      .ok (pos + length - start)
    else consumeBytesLoop data start (pos + length) (if number = 1 then true else c1)
termination_by data.length - pos
decreasing_by
simp_wf
omega

/-- scan.go `consumeBytes(data, position)`. -/
def consumeBytes (data : List Nat) (position : Nat) : Except WireError Nat :=
  consumeBytesLoop data position position false

/-- Modelled from the claim's words (C1), to be compared with
`consumeBytesLoop`: the consumed segment ends at the earliest of
(a) the start of a second record with field number 1 (checked before
consuming it), (b) a decode attempt reporting "invalid field number"
(a normal end), (c) a consumption step advancing by zero bytes, or
(d) the end of the buffer; any other decode failure is an error. -/
def consumeBytesSpec (data : List Nat) (start pos : Nat) (c1 : Bool) :
    Except WireError Nat :=
  match consumeField (data.drop pos) with
  | .error e => if e = .fieldNumber then .ok (pos - start) else .error e
  | .ok (number, _typ, length) =>
    if number = 1 ∧ c1 = true then .ok (pos - start)
    else if h0 : length = 0 then .ok (pos - start)
    else if hb : data.length ≤ pos + length then .ok (pos + length - start)
    else consumeBytesSpec data start (pos + length) (if number = 1 then true else c1)
termination_by data.length - pos
decreasing_by
simp_wf
omega

theorem consumeBytesLoop_eq_spec_aux (data : List Nat) (start : Nat) :
    ∀ fuel pos c1, data.length - pos ≤ fuel → start ≤ pos →
      consumeBytesLoop data start pos c1 = consumeBytesSpec data start pos c1 := by
  intro fuel
  induction fuel with
  | zero =>
    intro pos c1 hf hsp
    have hd : data.drop pos = [] := List.drop_eq_nil_of_le (by omega)
    rw [consumeBytesLoop.eq_def, consumeBytesSpec.eq_def, hd]
    have hcf : consumeField [] = .error .truncated := rfl
    rw [hcf]
  | succ n ih =>
    intro pos c1 hf hsp
    rw [consumeBytesLoop.eq_def, consumeBytesSpec.eq_def]
    cases hcf : consumeField (data.drop pos) with
    | error e => rfl
    | ok t =>
      obtain ⟨number, typ, length⟩ := t
      have hlen := consumeField_ok_pos hcf
      have hbiff : (data.length - start ≤ pos + length - start) ↔
          (data.length ≤ pos + length) := by omega
      simp only []
      rw [dif_neg (show ¬ length = 0 by omega)]
      by_cases h1 : number = 1 ∧ c1 = true
      · rw [if_pos h1, if_pos h1]
      · rw [if_neg h1, if_neg h1, dif_neg (show ¬ length = 0 by omega)]
        by_cases hb : data.length ≤ pos + length
        · rw [dif_pos (hbiff.mpr hb), dif_pos hb]
        · rw [dif_neg (fun hx => hb (hbiff.mp hx)), dif_neg hb]
          exact ih (pos + length) _ (by omega) (by omega)

theorem consumeBytesLoop_ok_mono (data : List Nat) (start : Nat) :
    ∀ fuel pos c1 r, data.length - pos ≤ fuel →
      consumeBytesLoop data start pos c1 = .ok r → pos - start ≤ r := by
  intro fuel
  induction fuel with
  | zero =>
    intro pos c1 r hf h
    have hd : data.drop pos = [] := List.drop_eq_nil_of_le (by omega)
    rw [consumeBytesLoop.eq_def, hd] at h
    have hcf : consumeField [] = .error .truncated := rfl
    rw [hcf] at h
    simp at h
  | succ n ih =>
    intro pos c1 r hf h
    rw [consumeBytesLoop.eq_def] at h
    split at h
    next e hcf =>
      split at h
      · simp only [Except.ok.injEq] at h
        omega
      · simp at h
    next number typ length hcf =>
      have hlen := consumeField_ok_pos hcf
      split at h
      · simp only [Except.ok.injEq] at h
        omega
      · split at h
        · simp only [Except.ok.injEq] at h
          omega
        · split at h
          · simp only [Except.ok.injEq] at h
            omega
          · have := ih (pos + length) _ r (by omega) h
            omega

/-- Go `bytes.LastIndexByte`: index of the last occurrence of byte `c`. -/
def lastIndexByte : List Nat → Nat → Option Nat
  | [], _ => none
  | a :: t, c =>
    match lastIndexByte t c with
    | some j => some (j + 1)
    | none => if a = c then some 0 else none

theorem lastIndexByte_lt {l : List Nat} {c p : Nat}
    (h : lastIndexByte l c = some p) : p < l.length := by
  induction l generalizing p with
  | nil => simp [lastIndexByte] at h
  | cons a t ih =>
    simp only [lastIndexByte] at h
    split at h
    next j hj =>
      simp only [Option.some.injEq] at h
      have := ih hj
      simp only [List.length_cons]
      omega
    · split at h
      · simp only [Option.some.injEq] at h
        simp only [List.length_cons]
        omega
      · simp at h

theorem lastIndexByte_getD {l : List Nat} {c p : Nat}
    (h : lastIndexByte l c = some p) : l.getD p 0 = c := by
  induction l generalizing p with
  | nil => simp [lastIndexByte] at h
  | cons a t ih =>
    simp only [lastIndexByte] at h
    split at h
    next j hj =>
      simp only [Option.some.injEq] at h
      subst h
      simpa using ih hj
    · split at h
      next ha =>
        simp only [Option.some.injEq] at h
        subst h
        simpa using ha
      · simp at h

/-- Occurrence of `pat` inside `data` at offset `i`. -/
def sublistAt (pat data : List Nat) (i : Nat) : Prop :=
  (data.drop i).take pat.length = pat

instance (pat data : List Nat) (i : Nat) : Decidable (sublistAt pat data i) := by
  unfold sublistAt
  infer_instance

theorem isPrefixOf_eq_take {pat l : List Nat} :
    pat.isPrefixOf l = true ↔ l.take pat.length = pat := by
  induction pat generalizing l with
  | nil => simp [List.isPrefixOf]
  | cons a t ih =>
    cases l with
    | nil => simp [List.isPrefixOf]
    | cons b u =>
      simp only [List.isPrefixOf, List.length_cons, List.take_succ_cons,
        Bool.and_eq_true, beq_iff_eq, List.cons.injEq, ih]
      tauto

/-- Go `bytes.Index`: offset of the first occurrence of `pat`, if any. -/
def bytesIndex (pat : List Nat) : List Nat → Option Nat
  | [] => if pat.isPrefixOf [] then some 0 else none
  | a :: t =>
    if pat.isPrefixOf (a :: t) then some 0
    else (bytesIndex pat t).map (· + 1)

theorem bytesIndex_some_sub {pat l : List Nat} {i : Nat}
    (h : bytesIndex pat l = some i) : sublistAt pat l i := by
  induction l generalizing i with
  | nil =>
    simp only [bytesIndex] at h
    split at h
    next hp =>
      simp only [Option.some.injEq] at h
      subst h
      exact isPrefixOf_eq_take.1 hp
    · simp at h
  | cons a t ih =>
    simp only [bytesIndex] at h
    split at h
    next hp =>
      simp only [Option.some.injEq] at h
      subst h
      exact isPrefixOf_eq_take.1 hp
    · simp only [Option.map_eq_some'] at h
      obtain ⟨j, hj, rfl⟩ := h
      have := ih hj
      simpa [sublistAt] using this

theorem sublistAt_length_le {pat l : List Nat} {i : Nat} (hp : 0 < pat.length)
    (h : sublistAt pat l i) : i + pat.length ≤ l.length := by
  unfold sublistAt at h
  have := congrArg List.length h
  simp only [List.length_take, List.length_drop] at this
  omega

/-- Go's conversion of a `uint64` value to a signed 64-bit `int`. -/
def intCast64 (v : Nat) : Int :=
  if v < 2 ^ 63 then (v : Int) else (v : Int) - 2 ^ 64

/-- The marker constant `scan = ".proto"` of scan.go, as bytes. -/
def scanMarker : List Nat := [46, 112, 114, 111, 116, 111]

/-- The tag byte `magicByte = 0xa` of scan.go (field 1, length-delimited). -/
def magicByte : Nat := 0xa

/-- The `for tryLen := 4; tryLen >= 1 && pos >= tryLen; tryLen--` loop of
`findValidStartWithLength`: try outer length-prefix varint widths from 4
down, each ending exactly at `pos`.  Note that `pos >= tryLen` is part of
the loop condition, so the loop exits entirely (rather than skipping to a
shorter width) as soon as `pos < tryLen`; Go's inner acceptance test is
`n == tryLen && int(candidateLen) >= minValidLength` and then
`pos + int(candidateLen) <= len(data)`, with `int` the signed cast. -/
def tryOuterLen (data : List Nat) (pos minValidLength : Nat) :
    Nat → Option (Nat × Nat)
  | 0 => none
  | t + 1 =>
    if pos < t + 1 then none
    else
      match consumeVarint (data.drop (pos - (t + 1))) with
      | .ok (candidateLen, n) =>
        if n = t + 1 ∧ (minValidLength : Int) ≤ intCast64 candidateLen
            ∧ (pos : Int) + intCast64 candidateLen ≤ (data.length : Int) then
          some (candidateLen, n)
        else tryOuterLen data pos minValidLength t
      | .error _ => tryOuterLen data pos minValidLength t

/-- Loop of scan.go `findValidStartWithLength`: search backwards from
`searchStart` for a `0xa` tag byte that validly encodes a filename ending
at `filenameEnd`; on success return `(start, prefixLen, prefixBytes)`
(`prefixLen = 0` when no outer length prefix validates). -/
def findValidStartLoop (data : List Nat) (filenameEnd searchStart : Nat) :
    Option (Nat × Nat × Nat) :=
  if searchStart = 0 then none
  else
    match hp : lastIndexByte (data.take searchStart) magicByte with
    | none => none
    | some pos =>
      if data.length ≤ pos + 1 then findValidStartLoop data filenameEnd pos
      else
        match consumeVarint (data.drop (pos + 1)) with
        | .error _ => findValidStartLoop data filenameEnd pos
        | .ok (filenameLen, varintLen) =>
          if (pos : Int) + 1 + (varintLen : Int) + intCast64 filenameLen
              = (filenameEnd : Int) then
            if pos + 1 + varintLen < data.length ∧ pos + 1 + varintLen < filenameEnd then
              if ((data.drop (pos + 1 + varintLen)).take
                  (filenameEnd - (pos + 1 + varintLen))).all
                  (fun b => 0x20 ≤ b ∧ b ≤ 0x7e) then
                if 1 ≤ pos then
                  match tryOuterLen data pos
                      (((data.drop (pos + 1 + varintLen)).take
                        (filenameEnd - (pos + 1 + varintLen))).length + 50) 4 with
                  | some (cl, n) => some (pos, cl, n)
                  | none => some (pos, 0, 0)
                else some (pos, 0, 0)
              else findValidStartLoop data filenameEnd pos
            else findValidStartLoop data filenameEnd pos
          else findValidStartLoop data filenameEnd pos
termination_by searchStart
decreasing_by
all_goals simp_wf
all_goals have hlt := lastIndexByte_lt hp
all_goals simp only [List.length_take] at hlt
all_goals omega

/-- scan.go `findValidStartWithLength(data, protoIndex)`: the filename ends
at `protoIndex + len(".proto")`; the backward search starts at `protoIndex`. -/
def findValidStartWithLength (data : List Nat) (protoIndex : Nat) :
    Option (Nat × Nat × Nat) :=
  findValidStartLoop data (protoIndex + 6) protoIndex

theorem findValidStartLoop_start {data : List Nat} {filenameEnd : Nat} :
    ∀ {s start pl pb : Nat},
    findValidStartLoop data filenameEnd s = some (start, pl, pb) →
    data.getD start 0 = magicByte ∧ start < data.length := by
  intro s
  induction s using Nat.strong_induction_on with
  | _ s ih =>
    intro start pl pb h
    rw [findValidStartLoop.eq_def] at h
    split at h
    · simp at h
    · split at h
      · simp at h
      next pos hp =>
        have hlt := lastIndexByte_lt hp
        have hgd := lastIndexByte_getD hp
        simp only [List.length_take] at hlt
        have hgd2 : data.getD pos 0 = magicByte := by
          rwa [List.getD_eq_getElem?_getD, List.getElem?_take_of_lt
            (by omega : pos < s), ← List.getD_eq_getElem?_getD] at hgd
        split at h
        · exact ih pos (by omega) h
        · split at h
          · exact ih pos (by omega) h
          next fl vl hv =>
            split at h
            · split at h
              · split at h
                · split at h
                  · split at h
                    all_goals
                      simp only [Option.some.injEq, Prod.mk.injEq] at h
                      obtain ⟨rfl, -, -⟩ := h
                      exact ⟨hgd2, by omega⟩
                  · simp only [Option.some.injEq, Prod.mk.injEq] at h
                    obtain ⟨rfl, -, -⟩ := h
                    exact ⟨hgd2, by omega⟩
                · exact ih pos (by omega) h
              · exact ih pos (by omega) h
            · exact ih pos (by omega) h

/-- Backward scan for the displayed filename start in `Scan` (used only for
the debug message): step back while the previous byte is printable and not
`0x0a`. -/
def filenameStartLoop (data : List Nat) : Nat → Nat
  | 0 => 0
  | k + 1 =>
    if data.getD k 0 ≠ 0x0a ∧ 0x20 ≤ data.getD k 0 ∧ data.getD k 0 ≤ 0x7e then
      filenameStartLoop data k
    else k + 1

/-- Byte list rendered as text (for the debug log). -/
def natsToString (l : List Nat) : String := (l.map Char.ofNat).asString

theorem consumeField_magic (rest : List Nat) :
    consumeField (10 :: rest) =
      match consumeBytesWire rest with
      | .error e => .error e
      | .ok m => .ok (1, 2, 1 + m) := by
  have h7 : 10 &&& 7 = 2 := by decide
  have h8 : 10 >>> 3 = 1 := by decide
  cases hw : consumeBytesWire rest <;>
    simp [consumeField, consumeTag, consumeVarint, consumeVarintAux,
      consumeFieldValue, defaultRecursionLimit, hw, h7, h8]

theorem consumeBytes_magic_pos {data : List Nat} {r : Nat}
    (hm : data.getD 0 0 = magicByte) (h : consumeBytes data 0 = .ok r) :
    1 ≤ r := by
  match data, hm, h with
  | [], hm, h => simp [magicByte, List.getD] at hm
  | b :: rest, hm, h =>
    have hb : b = 10 := by simpa [magicByte, List.getD] using hm
    subst hb
    rw [consumeBytes, consumeBytesLoop.eq_def] at h
    simp only [List.drop_zero] at h
    split at h
    next e hcf =>
      rw [consumeField_magic] at hcf
      split at hcf
      next e' hw =>
        simp only [Except.error.injEq] at hcf
        subst hcf
        have hek := consumeBytesWire_error_kinds hw
        split at h
        · rename_i hef
          rcases hek with rfl | rfl <;> simp at hef
        · simp at h
      · simp at hcf
    next number typ length hcf =>
      rw [consumeField_magic] at hcf
      split at hcf
      · simp at hcf
      next m hw =>
        simp only [Except.ok.injEq, Prod.mk.injEq] at hcf
        obtain ⟨rfl, -, rfl⟩ := hcf
        split at h
        · omega
        · split at h
          · rename_i hq
            simp at hq
          · split at h
            · simp only [Except.ok.injEq] at h
              omega
            · have := consumeBytesLoop_ok_mono (10 :: rest) 0
                ((10 :: rest).length) (0 + (1 + m)) _ r (by omega) h
              omega

/-- Debug-gated log output: the body of scan.go `debugPrintf`, which
prints only when the debug flag is set. -/
def dbg (debug : Bool) (msgs : List String) : List String :=
  if debug then msgs else []

/-- One iteration of the `for` loop in scan.go `Scan`, on the current
suffix `data` (`totalOffset` is the absolute offset of that suffix, used
by Go only in a debug message).  Returns `none` when the loop breaks, and
otherwise `(candidate?, advance, log)`: `candidate?` is the recorded range
`(start, length)` relative to `data` (or `none` when this marker occurrence
is skipped), `advance` the number of bytes dropped before the next
iteration, and `log` the printed lines (debug lines appear only when
`debug` is set; the `fmt.Printf` of a `consumeBytes` error is printed
unconditionally; message text is abbreviated, not Go's exact formatting). -/
def scanStepD (debug : Bool) (data : List Nat) (totalOffset : Nat) :
    Option (Option (Nat × Nat) × Nat × List String) :=
  match bytesIndex scanMarker data with
  | none => none
  | some index =>
    let filenameStart := filenameStartLoop data index
    let filename := (data.drop filenameStart).take (index + 6 - filenameStart)
    let log1 : List String :=
      dbg debug
        ["Found .proto at offset " ++ toString index ++ " (absolute: " ++
          toString (totalOffset + index) ++ "), possible filename: " ++
          natsToString filename]
    match findValidStartWithLength data index with
    | none =>
      some (none, index + 1, log1 ++ dbg debug ["No valid start found, skipping"])
    | some (start, prefixLen, prefixBytes) =>
      let log2 := log1 ++
        dbg debug
          ["Using start at offset " ++ toString start ++ ", prefixLen=" ++
            toString prefixLen ++ ", prefixBytes=" ++ toString prefixBytes]
      if 0 < prefixLen ∧ start + prefixLen ≤ data.length then
        some (some (start, prefixLen), start + prefixLen,
          log2 ++ dbg debug
            ["Using length prefix: " ++ toString prefixLen ++ " bytes"])
      else
        match consumeBytes data start with
        | .ok length =>
          some (some (start, length), start + length,
            log2 ++ dbg debug
              ["Extracted " ++ toString length ++ " bytes from offset " ++
                toString start])
        | .error _ =>
          if index < data.length then
            some (none, index + 1, log2 ++ ["couldn't consume proto bytes"])
          else none

theorem scanStepD_progress {debug : Bool} {data : List Nat} {off : Nat}
    {c : Option (Nat × Nat)} {adv : Nat} {lg : List String}
    (h : scanStepD debug data off = some (c, adv, lg)) :
    1 ≤ adv ∧ 1 ≤ data.length := by
  unfold scanStepD at h
  split at h
  · simp at h
  next index hidx =>
    have hsub := bytesIndex_some_sub hidx
    have hlen := sublistAt_length_le (by simp [scanMarker]) hsub
    simp only [scanMarker, List.length_cons, List.length_nil] at hlen
    split at h
    · simp only [Option.some.injEq, Prod.mk.injEq] at h
      obtain ⟨-, rfl, -⟩ := h
      omega
    next start prefixLen prefixBytes hfind =>
      split at h
      next hpre =>
        simp only [Option.some.injEq, Prod.mk.injEq] at h
        obtain ⟨-, rfl, -⟩ := h
        omega
      next hpre =>
        split at h
        next length hcb =>
          simp only [Option.some.injEq, Prod.mk.injEq] at h
          obtain ⟨-, rfl, -⟩ := h
          rcases Nat.eq_zero_or_pos start with rfl | hs
          · have hm := (findValidStartLoop_start hfind).1
            have := consumeBytes_magic_pos hm hcb
            omega
          · omega
        next hcb =>
          split at h
          · simp only [Option.some.injEq, Prod.mk.injEq] at h
            obtain ⟨-, rfl, -⟩ := h
            omega
          · simp at h

/-- scan.go `Scan`, instrumented: returns the extracted byte segments
(Go's `results`, each `data[start : start+length]` of the then-current
suffix), the corresponding absolute ranges `(totalOffset + start, length)`
(Go tracks `totalOffset` for its debug output; the ranges themselves are
the instrumentation used by the theorems below), and the printed log. -/
def ScanD (debug : Bool) (data : List Nat) (off : Nat) :
    List (List Nat) × List (Nat × Nat) × List String :=
  match h : scanStepD debug data off with
  | none => ([], [], [])
  | some (c, adv, lg) =>
    let rest := ScanD debug (data.drop adv) (off + adv)
    ((match c with
      | some (s, l) => [(data.drop s).take l]
      | none => []) ++ rest.1,
     (match c with
      | some (s, l) => [(off + s, l)]
      | none => []) ++ rest.2.1,
     lg ++ rest.2.2)
termination_by data.length
decreasing_by
simp_wf
have := scanStepD_progress h
omega

/-- scan.go `Scan(data)`: the extracted byte segments (`DebugScan` is
`false` by default; by `scan_debug_noninterference` the flag never changes
the result). -/
def Scan (data : List Nat) : List (List Nat) :=
  (ScanD false data 0).1

/-- The candidate ranges `(start, length)` recorded by `Scan`, in absolute
offsets of the input buffer. -/
def ScanRanges (data : List Nat) : List (Nat × Nat) :=
  (ScanD false data 0).2.1

theorem scanStepD_proj (debug : Bool) (data : List Nat) (off : Nat) :
    (scanStepD debug data off).map (fun x => (x.1, x.2.1)) =
    (scanStepD false data 0).map (fun x => (x.1, x.2.1)) := by
  unfold scanStepD
  cases bytesIndex scanMarker data with
  | none => rfl
  | some index =>
    simp only []
    cases findValidStartWithLength data index with
    | none => rfl
    | some t =>
      obtain ⟨start, prefixLen, prefixBytes⟩ := t
      simp only []
      by_cases hp : 0 < prefixLen ∧ start + prefixLen ≤ data.length
      · rw [if_pos hp, if_pos hp]
        rfl
      · rw [if_neg hp, if_neg hp]
        cases consumeBytes data start with
        | ok length => rfl
        | error e =>
          simp only []
          by_cases hi : index < data.length
          · rw [if_pos hi, if_pos hi]
            rfl
          · rw [if_neg hi, if_neg hi]

theorem ScanD_step_none {debug : Bool} {data : List Nat} {off : Nat}
    (h : scanStepD debug data off = none) : ScanD debug data off = ([], [], []) := by
  rw [ScanD.eq_def]
  split
  · rfl
  next c adv lg h2 =>
    rw [h] at h2
    cases h2

theorem ScanD_step_some {debug : Bool} {data : List Nat} {off : Nat}
    {c : Option (Nat × Nat)} {adv : Nat} {lg : List String}
    (h : scanStepD debug data off = some (c, adv, lg)) :
    ScanD debug data off =
      ((match c with
        | some (s, l) => [(data.drop s).take l]
        | none => []) ++ (ScanD debug (data.drop adv) (off + adv)).1,
       (match c with
        | some (s, l) => [(off + s, l)]
        | none => []) ++ (ScanD debug (data.drop adv) (off + adv)).2.1,
       lg ++ (ScanD debug (data.drop adv) (off + adv)).2.2) := by
  rw [ScanD.eq_def]
  split
  next h2 =>
    rw [h] at h2
    cases h2
  next c2 adv2 lg2 h2 =>
    rw [h] at h2
    simp only [Option.some.injEq, Prod.mk.injEq] at h2
    obtain ⟨rfl, rfl, rfl⟩ := h2
    rfl

theorem ScanD_debug_inv_aux :
    ∀ fuel data off, data.length ≤ fuel →
      (ScanD true data off).1 = (ScanD false data off).1 ∧
      (ScanD true data off).2.1 = (ScanD false data off).2.1 := by
  intro fuel
  induction fuel with
  | zero =>
    intro data off hf
    have hd : data = [] := by
      cases data with
      | nil => rfl
      | cons a t => simp at hf
    subst hd
    have hs : ∀ d : Bool, ∀ o : Nat, scanStepD d [] o = none := by
      intro d o
      unfold scanStepD
      rw [show bytesIndex scanMarker [] = none from by decide]
    rw [ScanD_step_none (hs true off), ScanD_step_none (hs false off)]
    exact ⟨rfl, rfl⟩
  | succ n ih =>
    intro data off hf
    have hproj := (scanStepD_proj true data off).trans
      (scanStepD_proj false data off).symm
    cases h1 : scanStepD true data off with
    | none =>
      cases h2 : scanStepD false data off with
      | none =>
        rw [ScanD_step_none h1, ScanD_step_none h2]
        exact ⟨rfl, rfl⟩
      | some y =>
        rw [h1, h2] at hproj
        simp at hproj
    | some x =>
      obtain ⟨c1, adv1, lg1⟩ := x
      cases h2 : scanStepD false data off with
      | none =>
        rw [h1, h2] at hproj
        simp at hproj
      | some y =>
        obtain ⟨c2, adv2, lg2⟩ := y
        rw [h1, h2] at hproj
        simp only [Option.map_some', Option.some.injEq, Prod.mk.injEq] at hproj
        obtain ⟨hc, hadv⟩ := hproj
        subst hc
        subst hadv
        have hpr := scanStepD_progress h1
        have hrest := ih (data.drop adv1) (off + adv1)
          (by simp only [List.length_drop]; omega)
        rw [ScanD_step_some h1, ScanD_step_some h2]
        cases c1 with
        | none =>
          exact ⟨by simp [hrest.1], by simp [hrest.2]⟩
        | some p =>
          obtain ⟨s, l⟩ := p
          exact ⟨by simp [hrest.1], by simp [hrest.2]⟩

theorem scanStepD_nil (debug : Bool) (off : Nat) :
    scanStepD debug [] off = none := by
  unfold scanStepD
  rw [show bytesIndex scanMarker [] = none from by decide]

theorem scanStepD_cand_adv {debug : Bool} {data : List Nat} {off : Nat}
    {s l adv : Nat} {lg : List String}
    (h : scanStepD debug data off = some (some (s, l), adv, lg)) :
    adv = s + l ∧ s + l ≤ data.length ∨ adv = s + l ∧
      consumeBytes data s = .ok l := by
  unfold scanStepD at h
  split at h
  · simp at h
  next index hidx =>
    split at h
    · simp at h
    next start prefixLen prefixBytes hfind =>
      split at h
      next hpre =>
        simp only [Option.some.injEq, Prod.mk.injEq] at h
        obtain ⟨h1, rfl, -⟩ := h
        obtain ⟨rfl, rfl⟩ := h1
        exact Or.inl ⟨rfl, hpre.2⟩
      next hpre =>
        split at h
        next length hcb =>
          simp only [Option.some.injEq, Prod.mk.injEq] at h
          obtain ⟨h1, rfl, -⟩ := h
          obtain ⟨rfl, rfl⟩ := h1
          exact Or.inr ⟨rfl, hcb⟩
        next hcb =>
          split at h
          · simp at h
          · simp at h

theorem ScanD_ranges_lb {debug : Bool} :
    ∀ fuel data off, data.length ≤ fuel →
      ∀ r ∈ (ScanD debug data off).2.1, off ≤ r.1 := by
  intro fuel
  induction fuel with
  | zero =>
    intro data off hf r hr
    have hd : data = [] := by
      cases data with
      | nil => rfl
      | cons a t => simp at hf
    subst hd
    rw [ScanD_step_none (scanStepD_nil debug off)] at hr
    simp at hr
  | succ n ih =>
    intro data off hf r hr
    cases h1 : scanStepD debug data off with
    | none =>
      rw [ScanD_step_none h1] at hr
      simp at hr
    | some x =>
      obtain ⟨c, adv, lg⟩ := x
      have hpr := scanStepD_progress h1
      rw [ScanD_step_some h1] at hr
      have htail : r ∈ (ScanD debug (data.drop adv) (off + adv)).2.1 → off ≤ r.1 := by
        intro hmem
        have := ih (data.drop adv) (off + adv)
          (by simp only [List.length_drop]; omega) r hmem
        omega
      cases c with
      | none =>
        simp only [List.nil_append] at hr
        exact htail hr
      | some p =>
        obtain ⟨s, l⟩ := p
        simp only [List.singleton_append, List.mem_cons] at hr
        rcases hr with rfl | hr
        · simp
        · exact htail hr

theorem ScanD_ranges_pairwise {debug : Bool} :
    ∀ fuel data off, data.length ≤ fuel →
      ((ScanD debug data off).2.1).Pairwise (fun a b => a.1 + a.2 ≤ b.1) := by
  intro fuel
  induction fuel with
  | zero =>
    intro data off hf
    have hd : data = [] := by
      cases data with
      | nil => rfl
      | cons a t => simp at hf
    subst hd
    rw [ScanD_step_none (scanStepD_nil debug off)]
    exact List.Pairwise.nil
  | succ n ih =>
    intro data off hf
    cases h1 : scanStepD debug data off with
    | none =>
      rw [ScanD_step_none h1]
      exact List.Pairwise.nil
    | some x =>
      obtain ⟨c, adv, lg⟩ := x
      have hpr := scanStepD_progress h1
      rw [ScanD_step_some h1]
      have htail := ih (data.drop adv) (off + adv)
        (by simp only [List.length_drop]; omega)
      cases c with
      | none => simpa using htail
      | some p =>
        obtain ⟨s, l⟩ := p
        have hadv := scanStepD_cand_adv h1
        have hadv2 : adv = s + l := by rcases hadv with ⟨h, -⟩ | ⟨h, -⟩ <;> exact h
        simp only [List.singleton_append, List.pairwise_cons]
        refine ⟨?_, htail⟩
        intro r hr
        have := @ScanD_ranges_lb debug n (data.drop adv) (off + adv)
          (by simp only [List.length_drop]; omega) r hr
        show (off + s) + l ≤ r.1
        omega

theorem ScanD_results_eq_map {debug : Bool} :
    ∀ (fuel : Nat) (data₀ : List Nat) (off : Nat), (data₀.drop off).length ≤ fuel →
      (ScanD debug (data₀.drop off) off).1 =
      ((ScanD debug (data₀.drop off) off).2.1).map
        (fun r => (data₀.drop r.1).take r.2) := by
  intro fuel
  induction fuel with
  | zero =>
    intro data₀ off hf
    have hd : data₀.drop off = [] := by
      cases h : data₀.drop off with
      | nil => rfl
      | cons a t => rw [h] at hf; simp at hf
    rw [hd, ScanD_step_none (scanStepD_nil debug off)]
    rfl
  | succ n ih =>
    intro data₀ off hf
    cases h1 : scanStepD debug (data₀.drop off) off with
    | none =>
      rw [ScanD_step_none h1]
      rfl
    | some x =>
      obtain ⟨c, adv, lg⟩ := x
      have hpr := scanStepD_progress h1
      rw [ScanD_step_some h1]
      have hdd : (data₀.drop off).drop adv = data₀.drop (off + adv) := by
        rw [List.drop_drop]
      have hlen2 : (data₀.drop (off + adv)).length ≤ n := by
        rw [← hdd]
        simp only [List.length_drop]
        simp only [List.length_drop] at hf
        omega
      have htail := ih data₀ (off + adv) hlen2
      cases c with
      | none =>
        simp only [List.nil_append]
        rw [hdd, htail]
      | some p =>
        obtain ⟨s, l⟩ := p
        simp only [List.singleton_append, List.map_cons]
        rw [hdd, htail]
        simp only [List.cons.injEq]
        refine ⟨?_, trivial⟩
        rw [List.drop_drop]

/-- Go `unicode.IsSpace` restricted to the ASCII whitespace characters
(space, tab, newline, vertical tab, form feed, carriage return); Unicode
space code points, which descriptor comments do not contain, are omitted. -/
def goIsSpace (c : Char) : Bool :=
  c = ' ' || c = '\t' || c = '\n' || c = Char.ofNat 11 || c = Char.ofNat 12 || c = '\r'

/-- Go `strings.TrimSpace`: drop leading and trailing whitespace. -/
def goTrimSpace (s : String) : String :=
  (((s.toList.dropWhile goIsSpace).reverse.dropWhile goIsSpace).reverse).asString

/-- Go `strings.TrimSuffix(s, "\n")`: drop one trailing newline if present. -/
def stripNewlineSuffix (s : String) : String :=
  if s.toList.getLast? = some '\n' then (s.toList.dropLast).asString else s

/-- Go `strings.Contains(s, "\n")` (a one-character pattern, so substring
containment is character membership). -/
def containsNewline (s : String) : Bool :=
  s.toList.contains '\n'

/-- proto.go `writeIndented`'s prefix `strings.Repeat("  ", indendation)`. -/
def indentStr (n : Nat) : String := String.join (List.replicate n "  ")

/-- proto.go `CommentInfo`. -/
structure CommentInfo where
  leadingComments : String
  trailingComments : String
  leadingDetachedComments : List String
deriving DecidableEq

/-- The comment map `pd.comments`.  Go keys it by `pathKey(path)`, a
"."-joined decimal string; since that key function is injective on paths,
the map is modelled as a function on the paths themselves. -/
def Comments : Type := List Int → Option CommentInfo

/-- proto.go `writeComment`: each line of the comment block (after
dropping one trailing newline) on its own indented `//` line. -/
def writeComment (ind : Nat) (comment : String) : String :=
  if comment = "" then ""
  else
    String.join (((stripNewlineSuffix comment).splitOn "\n").map
      (fun line => indentStr ind ++ "//" ++ line ++ "\n"))

/-- proto.go `writeLeadingComments`: each leading-detached block followed
by a blank line, then the leading comment block. -/
def writeLeadingComments (cm : Comments) (ind : Nat) (path : List Int) : String :=
  match cm path with
  | none => ""
  | some info =>
    String.join (info.leadingDetachedComments.map
      (fun comment => writeComment ind comment ++ "\n")) ++
    (if info.leadingComments ≠ "" then writeComment ind info.leadingComments else "")

/-- proto.go `writeTrailingComment`: the text this call appends to the
current output line.  A trailing comment is trimmed; if the result is
nonempty and free of internal newlines it is appended as ` //<text>` on
the same line, otherwise nothing is written. -/
def writeTrailingComment (cm : Comments) (path : List Int) : String :=
  match cm path with
  | none => ""
  | some info =>
    if info.trailingComments = "" then ""
    else
      let comment := goTrimSpace info.trailingComments
      if comment ≠ "" then
        let comment2 := stripNewlineSuffix comment
        if ¬ containsNewline comment2 then " //" ++ comment2 else ""
      else ""

/-- The type of a field as consumed by proto.go `writeType`, which
dispatches on `field.Kind().String()` and recurses into map key/value
descriptors; modelled as a tree so the recursion is structural. -/
inductive ProtoType where
  | message (fullName : String)
  | enumType (fullName : String)
  | mapType (key value : ProtoType)
  | scalar (kind : String)

/-- The dispatch string `field.Kind().String()` of a `ProtoType`. -/
def kindString : ProtoType → String
  | .message _ => "message"
  | .enumType _ => "enum"
  | .mapType _ _ => "map"
  | .scalar k => k

/-- proto.go `writeType`: message and enum types as `.`-prefixed fully
qualified names, maps as `map<key, value>`, scalars by kind name. -/
def writeType : ProtoType → String
  | .message fn => "." ++ fn
  | .enumType fn => "." ++ fn
  | .mapType k v => "map<" ++ writeType k ++ ", " ++ writeType v ++ ">"
  | .scalar k => k

/-- One field descriptor, with the accessors `writeFieldWithPath` reads. -/
structure FieldD where
  name : String
  number : Int
  type : ProtoType
  hasOptionalKeyword : Bool
  cardinality : String
  hasDefault : Bool
  defaultStr : String
  defaultEnumName : String

/-- proto.go `writeFieldWithPath` (`syn` is `descriptor.Syntax().String()`):
leading comments, indentation, the optional/repeated/required qualifier,
type, name, number, optional default clause, `;`, trailing comment,
newline. -/
def writeFieldWithPath (cm : Comments) (syn : String) (ind : Nat) (f : FieldD)
    (msgPath : List Int) (fieldIdx : Int) : String :=
  writeLeadingComments cm ind (msgPath ++ [2, fieldIdx]) ++
  indentStr ind ++
  (if f.hasOptionalKeyword then "optional "
   else if f.cardinality = "repeated" then "repeated "
   else if f.cardinality = "required" ∧ syn = "proto2" then "required "
   else "") ++
  writeType f.type ++ " " ++ f.name ++ " = " ++ toString f.number ++
  (if f.hasDefault then
     " [default = " ++
     (if kindString f.type = "string" then "\"" ++ f.defaultStr ++ "\""
      else if kindString f.type = "enum" then f.defaultEnumName
      else f.defaultStr) ++ "]"
   else "") ++
  ";" ++ writeTrailingComment cm (msgPath ++ [2, fieldIdx]) ++ "\n"

/-- One oneof descriptor. -/
structure OneofD where
  name : String
  isSynthetic : Bool
  fields : List FieldD

/-- proto.go `writeOneofWithPath`: a synthetic oneof (proto3 optional
field) is rendered by writing its single field (Go `oneof.Fields().Get(0)`,
which panics on an empty oneof, so the empty case returns the empty
string as an unreachable default); a real oneof is rendered as an
explicit `oneof <name> { ... }` block. -/
def writeOneofWithPath (cm : Comments) (syn : String) (ind : Nat) (o : OneofD)
    (msgPath : List Int) (oneofIdx : Int) (fieldIndexMap : String → Int) : String :=
  if o.isSynthetic then
    match o.fields with
    | [] => ""
    | f :: _ => writeFieldWithPath cm syn ind f msgPath (fieldIndexMap f.name)
  else
    writeLeadingComments cm ind (msgPath ++ [8, oneofIdx]) ++
    indentStr ind ++ "oneof " ++ o.name ++ " \x7b\n" ++
    String.join (o.fields.map (fun f =>
      writeFieldWithPath cm syn (ind + 1) f msgPath (fieldIndexMap f.name))) ++
    indentStr ind ++ "\x7d" ++ writeTrailingComment cm (msgPath ++ [8, oneofIdx]) ++ "\n"

/-- protowire `MaxValidNumber = 1<<29 - 1`. -/
def maxValidNumber : Int := 536870911

/-- Go `int32` arithmetic wrap-around (reserved-range bounds are
`protoreflect.FieldNumber`, an `int32`). -/
def wrap32 (x : Int) : Int := (x + 2 ^ 31) % 2 ^ 32 - 2 ^ 31

/-- The number text of one reserved range in proto.go
`writeMessageWithPath`: the local copy is swapped if reversed, its upper
bound decremented to the inclusive form, and displayed either as a single
number, or as `lower to upper` with `max` replacing an upper bound equal
to `protowire.MaxValidNumber`. -/
def reservedRangeBody (r : Int × Int) : String :=
  let r1 := if r.1 > r.2 then (r.2, r.1) else r
  let r2 := (r1.1, wrap32 (r1.2 - 1))
  if r2.1 = r2.2 then toString r2.1
  else toString r2.1 ++ " to " ++
    (if r2.2 = maxValidNumber then "max" else toString r2.2)

/-- The reserved-range loop of proto.go `writeMessageWithPath`, as a
state-passing function on the message's stored ranges: Go's
`message.ReservedRanges().Get(i)` returns the `[2]FieldNumber` array by
value, so the swap and decrement act on a local copy and the descriptor's
stored ranges are returned unchanged alongside the emitted text. -/
def writeReservedRanges (ind : Nat) (rs : List (Int × Int)) :
    String × List (Int × Int) :=
  (String.join (rs.map (fun r =>
    indentStr ind ++ "reserved " ++ reservedRangeBody r ++ ";\n")), rs)

deriving instance DecidableEq for Except

theorem consumeField_tag2 {b0 : Nat} (rest : List Nat) (h1 : b0 < 0x80)
    (h2 : 1 ≤ b0 >>> 3) (h4 : b0 &&& 7 = 2) :
    consumeField (b0 :: rest) =
      match consumeBytesWire rest with
      | .error e => .error e
      | .ok m => .ok (b0 >>> 3, 2, 1 + m) := by
  have hdiv : b0 >>> 3 = b0 / 8 := by
    rw [Nat.shiftRight_eq_div_pow]
  have hmod : b0 % 18446744073709551616 = b0 := Nat.mod_eq_of_lt (by omega)
  have hc1 : ¬ (2147483647 < b0 >>> 3) := by
    rw [hdiv]
    omega
  have hc2 : ¬ (b0 >>> 3 = 0) := by omega
  cases hw : consumeBytesWire rest <;>
    simp [consumeField, consumeTag, consumeVarint, consumeVarintAux,
      consumeFieldValue, defaultRecursionLimit, hw, h4, hmod, hc1, hc2, h1]

theorem consumeBytesLoop_step_err {data : List Nat} {start pos : Nat} {c1 : Bool}
    {e : WireError} (h : consumeField (data.drop pos) = .error e) :
    consumeBytesLoop data start pos c1 =
      if e = .fieldNumber then .ok (pos - start) else .error e := by
  rw [consumeBytesLoop.eq_def, h]

theorem consumeBytesLoop_step_ok {data : List Nat} {start pos : Nat} {c1 : Bool}
    {number typ length : Nat}
    (h : consumeField (data.drop pos) = .ok (number, typ, length)) :
    consumeBytesLoop data start pos c1 =
      if length = 0 then .ok (pos - start)
      else if number = 1 ∧ c1 = true then .ok (pos - start)
      else if data.length - start ≤ pos + length - start then
        .ok (pos + length - start)
      else consumeBytesLoop data start (pos + length)
        (if number = 1 then true else c1) := by
  rw [consumeBytesLoop.eq_def, h]
  rfl

theorem strToList_append (a b : String) : (a ++ b).toList = a.toList ++ b.toList := by
  cases a
  cases b
  rfl

theorem head_dropWhile_not (p : Char → Bool) :
    ∀ (l : List Char) (a : Char), (l.dropWhile p).head? = some a → p a = false := by
  intro l
  induction l with
  | nil => intro a h; simp [List.dropWhile] at h
  | cons x t ih =>
    intro a h
    rw [List.dropWhile] at h
    by_cases hp : p x = true
    · rw [hp] at h
      simp only [] at h
      exact ih a h
    · rw [Bool.not_eq_true] at hp
      rw [hp] at h
      simp only [List.head?] at h
      simp only [Option.some.injEq] at h
      subst h
      exact hp

theorem goTrimSpace_getLast_not_space {s : String} {c : Char}
    (h : (goTrimSpace s).toList.getLast? = some c) : goIsSpace c = false := by
  unfold goTrimSpace at h
  rw [show ((((s.toList.dropWhile goIsSpace).reverse.dropWhile goIsSpace).reverse).asString).toList
      = (((s.toList.dropWhile goIsSpace).reverse.dropWhile goIsSpace)).reverse from rfl] at h
  rw [List.getLast?_reverse] at h
  exact head_dropWhile_not goIsSpace _ c h

theorem stripNewlineSuffix_goTrimSpace (s : String) :
    stripNewlineSuffix (goTrimSpace s) = goTrimSpace s := by
  unfold stripNewlineSuffix
  cases hl : (goTrimSpace s).toList.getLast? with
  | none => simp [hl]
  | some c =>
    have hc := goTrimSpace_getLast_not_space hl
    exact if_neg (by
      simp only [Option.some.injEq]
      intro hx
      subst hx
      simp [goIsSpace] at hc)

theorem containsNewline_append (a b : String) :
    containsNewline (a ++ b) = (containsNewline a || containsNewline b) := by
  unfold containsNewline
  rw [strToList_append]
  induction a.toList with
  | nil => simp
  | cons x t ih =>
    simp only [List.cons_append, List.contains_cons, ih, Bool.or_assoc]

/-- Modelled from the claim's words (C5), to be compared with
`tryOuterLen`: width `w` is acceptable at start `S = pos` when a varint
ends exactly at `S` (decoding to `V` in exactly `w` bytes) with
`V ≥ minValid` and `S + V ≤ buffer length` (both compared as Go `int`s). -/
def outerLenOK (data : List Nat) (pos minValid w : Nat) : Bool :=
  match consumeVarint (data.drop (pos - w)) with
  | .ok (v, n) =>
    decide (n = w ∧ (minValid : Int) ≤ intCast64 v ∧
      (pos : Int) + intCast64 v ≤ (data.length : Int))
  | .error _ => false

/-- Modelled from the claim's words (C5): the first of the widths
4, 3, 2, 1 (longest first) that is acceptable, with its decoded value. -/
def specFirstOuterLen (data : List Nat) (pos minValid : Nat) : Option (Nat × Nat) :=
  match [4, 3, 2, 1].find? (fun w => outerLenOK data pos minValid w) with
  | none => none
  | some w =>
    match consumeVarint (data.drop (pos - w)) with
    | .ok (v, n) => some (v, n)
    | .error _ => none

theorem tryOuterLen_step (data : List Nat) (pos mv t : Nat) (h : t + 1 ≤ pos) :
    tryOuterLen data pos mv (t + 1) =
      if outerLenOK data pos mv (t + 1) = true then
        match consumeVarint (data.drop (pos - (t + 1))) with
        | .ok (v, n) => some (v, n)
        | .error _ => none
      else tryOuterLen data pos mv t := by
  cases hv : consumeVarint (data.drop (pos - (t + 1))) with
  | error e =>
    simp [tryOuterLen, outerLenOK, hv, Nat.not_lt.2 h]
  | ok p =>
    obtain ⟨v, n⟩ := p
    by_cases hc : n = t + 1 ∧ (mv : Int) ≤ intCast64 v ∧
        (pos : Int) + intCast64 v ≤ (data.length : Int)
    · simp [tryOuterLen, outerLenOK, hv, Nat.not_lt.2 h, hc]
    · simp [tryOuterLen, outerLenOK, hv, Nat.not_lt.2 h, hc]

theorem str_empty_append (s : String) : "" ++ s = s := by
  cases s
  rfl

/-- Claim C3: a message reserved range stored half-open as
`[lower, upperExclusive)` is emitted as `reserved lower;` when it has
exactly one member (`upperExclusive = lower + 1`) and otherwise as
`reserved lower to upperExclusive-1;`, with `upperExclusive-1` replaced by
the literal `max` exactly when it equals the maximum valid field number;
stated for `int32`-representable bounds `0 ≤ lower ≤ upperExclusive`. -/
theorem c3_reserved_range_display (ind : Nat) (l u : Int) (h0 : 0 ≤ l)
    (h1 : l ≤ u) (h2 : u ≤ 2 ^ 31 - 1) :
    reservedRangeBody (l, u) =
      (if u = l + 1 then toString l
       else toString l ++ " to " ++
         (if u - 1 = maxValidNumber then "max" else toString (u - 1))) ∧
    (writeReservedRanges ind [(l, u)]).1 =
      indentStr ind ++ "reserved " ++ reservedRangeBody (l, u) ++ ";\n" := by
  constructor
  · have hw : wrap32 (u - 1) = u - 1 := by
      unfold wrap32
      omega
    by_cases hu : u = l + 1
    · subst hu
      have hli : l + 1 - 1 = l := by omega
      simp [reservedRangeBody, show ¬ (l > l + 1) from by omega, hli,
        show wrap32 l = l from by unfold wrap32; omega]
    · have hne : ¬ (l = u - 1) := by omega
      simp [reservedRangeBody, hw, show ¬ (l > u) from by omega, hne, hu]
  · simp only [writeReservedRanges, List.map_cons, List.map_nil, String.join]
    simp only [List.foldl]
    rw [str_empty_append]

/-- Claim C3 witness: `[5,6)` renders as `reserved 5;`, `[5,10)` as
`reserved 5 to 9;`, and `[5, 2^29)` (upper bound at the maximum valid
field number) as `reserved 5 to max;`. -/
theorem c3_witness :
    (writeReservedRanges 1 [((5 : Int), (6 : Int))]).1 = "  reserved 5;\n" ∧
    (writeReservedRanges 1 [((5 : Int), (10 : Int))]).1 = "  reserved 5 to 9;\n" ∧
    (writeReservedRanges 1 [((5 : Int), (536870912 : Int))]).1 =
      "  reserved 5 to max;\n" := by
  have h1 := c3_reserved_range_display 1 5 6 (by decide) (by decide) (by decide)
  have h2 := c3_reserved_range_display 1 5 10 (by decide) (by decide) (by decide)
  have h3 := c3_reserved_range_display 1 5 536870912 (by decide) (by decide) (by decide)
  refine ⟨?_, ?_, ?_⟩
  · rw [h1.2, h1.1]
    decide
  · rw [h2.2, h2.1]
    decide
  · rw [h3.2, h3.1]
    decide

/-- Claim C8: rendering a message's reserved ranges never mutates the
stored half-open pairs (Go's `ReservedRanges().Get` hands the renderer a
copy by value, so the normalization works on new values), and re-rendering
the ranges left by a render yields the same output. -/
theorem c8_render_preserves_reserved_ranges (ind : Nat) (rs : List (Int × Int)) :
    (writeReservedRanges ind rs).2 = rs ∧
    (writeReservedRanges ind (writeReservedRanges ind rs).2).1 =
      (writeReservedRanges ind rs).1 :=
  ⟨rfl, rfl⟩

/-- Claim C10: the `DebugScan` flag changes only the diagnostic log, never
the extracted segments or the recorded candidate ranges of `Scan`. -/
theorem c10_debug_noninterference (data : List Nat) :
    (ScanD true data 0).1 = Scan data ∧
    (ScanD true data 0).2.1 = ScanRanges data := by
  have h := ScanD_debug_inv_aux data.length data 0 le_rfl
  exact ⟨h.1, h.2⟩

/-- Claim C7: the candidate ranges returned by `Scan` are ordered and
pairwise non-overlapping (each range starts at or after the end of every
earlier one), and the returned byte segments are exactly the corresponding
slices of the input buffer. -/
theorem c7_ranges_ordered_disjoint (data : List Nat) :
    Scan data = (ScanRanges data).map (fun r => (data.drop r.1).take r.2) ∧
    (ScanRanges data).Pairwise (fun a b => a.1 + a.2 ≤ b.1) := by
  constructor
  · have h := @ScanD_results_eq_map false data.length data 0
      (by simp)
    simpa only [List.drop_zero, Scan, ScanRanges] using h
  · exact @ScanD_ranges_pairwise false data.length data 0 le_rfl

/-- Claim C9: a buffer containing no occurrence of the 6-byte marker
`".proto"` yields an empty candidate sequence. -/
theorem c9_no_marker_empty {data : List Nat}
    (h : ∀ i, ¬ sublistAt scanMarker data i) :
    Scan data = [] ∧ ScanRanges data = [] := by
  have hbi : bytesIndex scanMarker data = none := by
    cases hb : bytesIndex scanMarker data with
    | none => rfl
    | some i => exact absurd (bytesIndex_some_sub hb) (h i)
  have hstep : scanStepD false data 0 = none := by
    unfold scanStepD
    rw [hbi]
  rw [Scan, ScanRanges, ScanD_step_none hstep]
  exact ⟨rfl, rfl⟩

/-- Claim C9 witness: the buffer `[1, 2, 3]` contains no marker occurrence
and scans to the empty candidate sequence. -/
theorem c9_witness : Scan [1, 2, 3] = [] ∧ ScanRanges [1, 2, 3] = [] := by
  refine c9_no_marker_empty ?_
  intro i hsub
  have hlen := congrArg List.length hsub
  simp only [List.length_take, List.length_drop, scanMarker,
    List.length_cons, List.length_nil] at hlen
  omega

/-- Claim C4: a oneof flagged synthetic (a single-member oneof standing
for an optional scalar field) is rendered as the plain field line of its
single field, whose qualifier is `optional ` (synthetic oneofs are exactly
the proto3 optional fields, whose descriptors report
`HasOptionalKeyword`); it is never rendered as an explicit `oneof` block,
while a non-synthetic oneof is rendered as an explicit
`oneof <name> { ... }` block. -/
theorem c4_synthetic_oneof_rendering (cm : Comments) (syn : String) (ind : Nat)
    (o : OneofD) (msgPath : List Int) (oneofIdx : Int) (fim : String → Int) :
    (∀ f : FieldD, o.isSynthetic = true → o.fields = [f] →
      f.hasOptionalKeyword = true →
      writeOneofWithPath cm syn ind o msgPath oneofIdx fim =
        writeFieldWithPath cm syn ind f msgPath (fim f.name) ∧
      writeFieldWithPath cm syn ind f msgPath (fim f.name) =
        writeLeadingComments cm ind (msgPath ++ [2, fim f.name]) ++
        indentStr ind ++ "optional " ++
        (writeType f.type ++ " " ++ f.name ++ " = " ++ toString f.number ++
         (if f.hasDefault then
            " [default = " ++
            (if kindString f.type = "string" then "\"" ++ f.defaultStr ++ "\""
             else if kindString f.type = "enum" then f.defaultEnumName
             else f.defaultStr) ++ "]"
          else "") ++
         (";" ++ writeTrailingComment cm (msgPath ++ [2, fim f.name]) ++ "\n"))) ∧
    (o.isSynthetic = false →
      writeOneofWithPath cm syn ind o msgPath oneofIdx fim =
        writeLeadingComments cm ind (msgPath ++ [8, oneofIdx]) ++
        indentStr ind ++ "oneof " ++ o.name ++ " \x7b\n" ++
        String.join (o.fields.map (fun f =>
          writeFieldWithPath cm syn (ind + 1) f msgPath (fim f.name))) ++
        indentStr ind ++ "\x7d" ++
        writeTrailingComment cm (msgPath ++ [8, oneofIdx]) ++ "\n") := by
  constructor
  · intro f hs hf hopt
    constructor
    · simp [writeOneofWithPath, hs, hf]
    · simp [writeFieldWithPath, hopt, String.append_assoc]
  · intro hs
    simp [writeOneofWithPath, hs, String.append_assoc]

/-- Claim C4 witness: a concrete synthetic oneof around an optional
`int32 x = 3` field renders as the plain line `  optional int32 x = 3;`
and equals the rendering of its single field. -/
theorem c4_witness :
    writeOneofWithPath (fun _ => none) "proto3" 1
        ⟨"_x", true, [⟨"x", 3, .scalar "int32", true, "optional", false, "", ""⟩]⟩
        [4, 0] 0 (fun _ => 0) =
      writeFieldWithPath (fun _ => none) "proto3" 1
        ⟨"x", 3, .scalar "int32", true, "optional", false, "", ""⟩ [4, 0] 0 ∧
    writeFieldWithPath (fun _ => none) "proto3" 1
        ⟨"x", 3, .scalar "int32", true, "optional", false, "", ""⟩ [4, 0] 0 =
      "  optional int32 x = 3;\n" := by
  constructor
  · exact ((c4_synthetic_oneof_rendering (fun _ => none) "proto3" 1
      ⟨"_x", true, [⟨"x", 3, .scalar "int32", true, "optional", false, "", ""⟩]⟩
      [4, 0] 0 (fun _ => 0)).1
      ⟨"x", 3, .scalar "int32", true, "optional", false, "", ""⟩ rfl rfl rfl).1
  · decide

/-- Claim C6: an attached trailing comment that is nonempty after
trimming surrounding whitespace is appended as ` //<text>` (itself free of
line breaks, hence on the element's own output line) when it has no
internal line break, and is dropped entirely when it has one. -/
theorem c6_trailing_comment (cm : Comments) (path : List Int)
    (info : CommentInfo) (hcm : cm path = some info)
    (hne : goTrimSpace info.trailingComments ≠ "") :
    (containsNewline (goTrimSpace info.trailingComments) = false →
      writeTrailingComment cm path = " //" ++ goTrimSpace info.trailingComments ∧
      containsNewline (writeTrailingComment cm path) = false) ∧
    (containsNewline (goTrimSpace info.trailingComments) = true →
      writeTrailingComment cm path = "") := by
  have hstrip := stripNewlineSuffix_goTrimSpace info.trailingComments
  have hnz : info.trailingComments ≠ "" := by
    intro hx
    apply hne
    rw [hx]
    rfl
  constructor
  · intro hnl
    have hmain : writeTrailingComment cm path =
        " //" ++ goTrimSpace info.trailingComments := by
      unfold writeTrailingComment
      rw [hcm]
      simp only [if_neg hnz, hstrip]
      simp [hne, hnl]
    refine ⟨hmain, ?_⟩
    rw [hmain, containsNewline_append, hnl]
    decide
  · intro hnl
    unfold writeTrailingComment
    rw [hcm]
    simp only [if_neg hnz, hstrip]
    simp [hne, hnl]

/-- Claim C6 witness: the trailing comment `" ok\n"` is appended inline as
` //ok`, while the two-line trailing comment `"a\nb"` is dropped. -/
theorem c6_witness :
    writeTrailingComment
        (fun p => if p = [4, 0] then some ⟨"", " ok\n", []⟩ else none) [4, 0] =
      " //ok" ∧
    writeTrailingComment
        (fun p => if p = [4, 0] then some ⟨"", "a\nb", []⟩ else none) [4, 0] = "" := by
  constructor
  · have h := (c6_trailing_comment
      (fun p => if p = [4, 0] then some ⟨"", " ok\n", []⟩ else none) [4, 0]
      ⟨"", " ok\n", []⟩ (by decide) (by decide)).1 (by decide)
    rw [h.1]
    decide
  · exact (c6_trailing_comment
      (fun p => if p = [4, 0] then some ⟨"", "a\nb", []⟩ else none) [4, 0]
      ⟨"", "a\nb", []⟩ (by decide) (by decide)).2 (by decide)

/-- Claim C2: every iteration of `Scan`'s loop either records a candidate
and advances past it or skips past the current marker occurrence, in both
cases advancing by at least one byte, so the remaining suffix strictly
shrinks (bounding total work by the buffer length; `Scan` itself is
defined by well-founded recursion on exactly this fact); and a marker
occurrence with no valid start contributes no candidate, advancing one
byte past the marker. -/
theorem c2_scan_progress (debug : Bool) (data : List Nat) (off : Nat)
    (c : Option (Nat × Nat)) (adv : Nat) (lg : List String)
    (h : scanStepD debug data off = some (c, adv, lg)) :
    1 ≤ adv ∧ (data.drop adv).length < data.length ∧
    (∀ i, bytesIndex scanMarker data = some i →
      findValidStartWithLength data i = none → c = none ∧ adv = i + 1) := by
  have hp := scanStepD_progress h
  refine ⟨hp.1, ?_, ?_⟩
  · simp only [List.length_drop]
    omega
  · intro i hbi hfind
    simp only [scanStepD, hbi, hfind] at h
    simp only [Option.some.injEq, Prod.mk.injEq] at h
    exact ⟨h.1.symm, h.2.1.symm⟩

/-- A small buffer holding one length-delimited field-1 record whose
payload is the marker text, used to instantiate the scanner theorems. -/
def scanExampleA : List Nat := [10, 6, 46, 112, 114, 111, 116, 111]

theorem c2_witness :
    1 ≤ 8 ∧ (scanExampleA.drop 8).length < scanExampleA.length ∧
    (∀ i, bytesIndex scanMarker scanExampleA = some i →
      findValidStartWithLength scanExampleA i = none →
      (some ((0 : Nat), (8 : Nat)) : Option (Nat × Nat)) = none ∧ 8 = i + 1) := by
  have hf : consumeField (List.drop 0 scanExampleA) = .ok (1, 2, 8) := by
    rw [show List.drop 0 scanExampleA = 10 :: List.drop 1 scanExampleA from rfl,
      consumeField_magic]
    decide
  have hcb : consumeBytes scanExampleA 0 = .ok 8 := by
    rw [consumeBytes, consumeBytesLoop_step_ok hf]
    decide
  have hfind : findValidStartWithLength scanExampleA 2 = some (0, 0, 0) := by
    rw [findValidStartWithLength, findValidStartLoop.eq_def]
    decide
  have hstep : scanStepD false scanExampleA 0 = some (some (0, 8), 8, []) := by
    simp only [scanStepD, show bytesIndex scanMarker scanExampleA = some 2 from
      by decide, hfind, hcb]
    decide
  exact c2_scan_progress false scanExampleA 0 (some (0, 8)) 8 [] hstep

/-- Claim C1: `consumeBytes` computes the byte length of the segment
ending at the earliest of the four stop conditions transcribed from the
claim in `consumeBytesSpec` (a second record with field number 1, a decode
attempt reporting the invalid-field-number error treated as a normal end,
a zero-byte consumption step, the end of the buffer), returning any other
decode failure as an error; and on such an error `Scan` abandons the
current marker occurrence, records no candidate, and resumes one byte past
the marker rather than aborting. -/
theorem c1_consume_boundary :
    (∀ (data : List Nat) (start : Nat), start ≤ data.length →
      consumeBytes data start = consumeBytesSpec data start start false) ∧
    (∀ (debug : Bool) (data : List Nat) (off i s pl pb : Nat) (e : WireError),
      bytesIndex scanMarker data = some i →
      findValidStartWithLength data i = some (s, pl, pb) →
      ¬(0 < pl ∧ s + pl ≤ data.length) →
      consumeBytes data s = .error e →
      ∃ lg, scanStepD debug data off = some (none, i + 1, lg)) := by
  constructor
  · intro data start hs
    exact consumeBytesLoop_eq_spec_aux data start data.length start false
      (by omega) le_rfl
  · intro debug data off i s pl pb e hbi hfind hpre herr
    have hsub := bytesIndex_some_sub hbi
    have hlen := sublistAt_length_le (by simp [scanMarker]) hsub
    simp only [scanMarker, List.length_cons, List.length_nil] at hlen
    exact ⟨_, by
      simp only [scanStepD, hbi, hfind, herr]
      rw [if_neg hpre, if_pos (show i < data.length by omega)]⟩

/-- A buffer whose marker occurrence validates a start at offset 0 but
whose second record is truncated, so `consumeBytes` fails. -/
def scanExampleB : List Nat := [10, 6, 46, 112, 114, 111, 116, 111, 18, 5, 1]

theorem c1_witness :
    consumeBytes scanExampleB 0 = consumeBytesSpec scanExampleB 0 0 false ∧
    (∃ lg, scanStepD false scanExampleB 0 = some (none, 3, lg)) := by
  have hf0 : consumeField (List.drop 0 scanExampleB) = .ok (1, 2, 8) := by
    rw [show List.drop 0 scanExampleB = 10 :: List.drop 1 scanExampleB from rfl,
      consumeField_magic]
    decide
  have hf8 : consumeField (List.drop 8 scanExampleB) = .error .truncated := by
    rw [show List.drop 8 scanExampleB = 18 :: List.drop 9 scanExampleB from rfl,
      consumeField_tag2 _ (by decide) (by decide) (by decide)]
    decide
  have hloop8 : consumeBytesLoop scanExampleB 0 8 true = .error .truncated := by
    rw [consumeBytesLoop_step_err hf8]
    decide
  have hcb : consumeBytes scanExampleB 0 = .error .truncated := by
    rw [consumeBytes, consumeBytesLoop_step_ok hf0]
    rw [if_neg (show ¬ ((8 : Nat) = 0) from by decide),
      if_neg (show ¬ ((1 : Nat) = 1 ∧ false = true) from by simp),
      if_neg (show ¬ (scanExampleB.length - 0 ≤ 0 + 8 - 0) from by decide)]
    simpa using hloop8
  constructor
  · exact c1_consume_boundary.1 scanExampleB 0 (by simp [scanExampleB])
  · exact c1_consume_boundary.2 false scanExampleB 0 2 0 0 0 .truncated
      (by decide)
      (by rw [findValidStartWithLength, findValidStartLoop.eq_def]; decide)
      (by simp)
      hcb

/-- Claim C5 (amended): for a start position `S ≥ 4` the Scanner tries the
outer length-prefix varint widths 4, 3, 2, 1 (longest first), each ending
exactly at `S`, accepting the first whose decoded value satisfies the
claim's conditions (`specFirstOuterLen`); for `S < 4` the width loop's
condition `pos >= tryLen` fails already at width 4 and no width is tried
at all; when `findValidStartWithLength` reports an accepted prefix `V`
(and `S + V` is in bounds) the recorded candidate is exactly `(S, V)`,
and only with no accepted prefix does `Scan` fall back to `consumeBytes`,
recording `(S, length)` from its result. -/
theorem c5_outer_length_widths (data : List Nat) (pos mv : Nat) :
    (4 ≤ pos → tryOuterLen data pos mv 4 = specFirstOuterLen data pos mv) ∧
    (pos < 4 → tryOuterLen data pos mv 4 = none) ∧
    (∀ (debug : Bool) (off i s pl pb : Nat),
      bytesIndex scanMarker data = some i →
      findValidStartWithLength data i = some (s, pl, pb) →
      0 < pl → s + pl ≤ data.length →
      ∃ lg, scanStepD debug data off = some (some (s, pl), s + pl, lg)) ∧
    (∀ (debug : Bool) (off i s pb L : Nat),
      bytesIndex scanMarker data = some i →
      findValidStartWithLength data i = some (s, 0, pb) →
      consumeBytes data s = .ok L →
      ∃ lg, scanStepD debug data off = some (some (s, L), s + L, lg)) := by
  refine ⟨?_, ?_, ?_, ?_⟩
  · intro h4
    unfold specFirstOuterLen
    rw [show tryOuterLen data pos mv 4 = tryOuterLen data pos mv (3 + 1) from rfl,
      tryOuterLen_step data pos mv 3 (by omega)]
    by_cases o4 : outerLenOK data pos mv 4 = true
    · rw [if_pos o4, List.find?_cons_of_pos _ o4]
    · rw [if_neg o4, List.find?_cons_of_neg _ (by simpa using o4)]
      rw [show tryOuterLen data pos mv 3 = tryOuterLen data pos mv (2 + 1) from rfl,
        tryOuterLen_step data pos mv 2 (by omega)]
      by_cases o3 : outerLenOK data pos mv 3 = true
      · rw [if_pos o3, List.find?_cons_of_pos _ o3]
      · rw [if_neg o3, List.find?_cons_of_neg _ (by simpa using o3)]
        rw [show tryOuterLen data pos mv 2 = tryOuterLen data pos mv (1 + 1) from rfl,
          tryOuterLen_step data pos mv 1 (by omega)]
        by_cases o2 : outerLenOK data pos mv 2 = true
        · rw [if_pos o2, List.find?_cons_of_pos _ o2]
        · rw [if_neg o2, List.find?_cons_of_neg _ (by simpa using o2)]
          rw [show tryOuterLen data pos mv 1 = tryOuterLen data pos mv (0 + 1) from rfl,
            tryOuterLen_step data pos mv 0 (by omega)]
          by_cases o1 : outerLenOK data pos mv 1 = true
          · rw [if_pos o1, List.find?_cons_of_pos _ o1]
          · rw [if_neg o1, List.find?_cons_of_neg _ (by simpa using o1)]
            rfl
  · intro h4
    unfold tryOuterLen
    rw [if_pos h4]
  · intro debug off i s pl pb hbi hfind hpl hle
    exact ⟨_, by
      simp only [scanStepD, hbi, hfind]
      rw [if_pos ⟨hpl, hle⟩]⟩
  · intro debug off i s pb L hbi hfind hcb
    exact ⟨_, by
      simp only [scanStepD, hbi, hfind, hcb]
      rw [if_neg (by simp)]⟩

/-- Counterexample buffer for claim C5: 58 bytes; the validated inner start
is at offset `2 < 4`, and the 2-byte varint `[184, 0]` ending exactly there
decodes to `56 = len(".proto") + 50` with `2 + 56 = 58` in bounds, so a
scanner that tried widths 4, 3, 2, 1 would accept width 2; the Go loop
condition `pos >= tryLen` already fails at width 4, so no width is tried. -/
def cex5 : List Nat :=
  [184, 0, 10, 6, 46, 112, 114, 111, 116, 111] ++ List.replicate 48 0

/-- Witness buffer for claim C5: 62 bytes whose validated start is at
offset 4; widths 4, 3, 2 fail (the varint ending at 4 has the wrong
width) and width 1 is accepted with value 58. -/
def dat2 : List Nat :=
  [0, 0, 0, 58, 10, 6] ++ scanMarker ++ List.replicate 50 0

theorem cex5_bi : bytesIndex scanMarker cex5 = some 4 := by decide

theorem cex5_find : findValidStartWithLength cex5 4 = some (2, 0, 0) := by
  rw [findValidStartWithLength, findValidStartLoop.eq_def]
  decide

theorem cex5_field2 : consumeField (cex5.drop 2) = .ok (1, 2, 8) := by
  rw [show cex5.drop 2 = 10 :: cex5.drop 3 from rfl, consumeField_magic]
  decide

theorem cex5_field10 : consumeField (cex5.drop 10) = .error .fieldNumber := by
  decide

theorem cex5_consume : consumeBytes cex5 2 = .ok 8 := by
  rw [consumeBytes, consumeBytesLoop_step_ok cex5_field2]
  rw [if_neg (show ¬ ((8 : Nat) = 0) from by decide),
    if_neg (show ¬ ((1 : Nat) = 1 ∧ false = true) from by simp),
    if_neg (show ¬ (cex5.length - 2 ≤ 2 + 8 - 2) from by decide)]
  have h10 : consumeBytesLoop cex5 2 10 true = .ok 8 := by
    rw [consumeBytesLoop_step_err cex5_field10]
    decide
  simpa using h10

theorem dat2_bi : bytesIndex scanMarker dat2 = some 6 := by decide

theorem dat2_find : findValidStartWithLength dat2 6 = some (4, 58, 1) := by
  rw [findValidStartWithLength, findValidStartLoop.eq_def]
  decide

/-- Claim C5 counterexample: in `cex5` the validated inner start is at
offset `2 < 4`; the 2-byte varint ending exactly at the start passes every
acceptance test of the claimed width sequence (value 56 = filename length
+ 50, `2 + 56 = 58` in bounds), yet the Scanner tries no width at all
(`tryOuterLen ... = none`), falls back to self-describing consumption and
records the range `(2, 8)` instead of `(2, 56)`. -/
theorem c5_counterexample :
    outerLenOK cex5 2 (6 + 50) 2 = true ∧
    tryOuterLen cex5 2 (6 + 50) 4 = none ∧
    findValidStartWithLength cex5 4 = some (2, 0, 0) ∧
    ScanRanges cex5 = [(2, 8)] ∧
    ¬ (2, 56) ∈ ScanRanges cex5 := by
  obtain ⟨lg1, hstep1⟩ :
      ∃ lg, scanStepD false cex5 0 = some (some (2, 8), 2 + 8, lg) := by
    exact ⟨_, by
      simp only [scanStepD, cex5_bi, cex5_find, cex5_consume]
      rw [if_neg (by simp)]⟩
  have hstep2 : scanStepD false (cex5.drop (2 + 8)) (0 + (2 + 8)) = none := by
    decide
  have hranges : ScanRanges cex5 = [(2, 8)] := by
    rw [ScanRanges, ScanD_step_some hstep1, ScanD_step_none hstep2]
    rfl
  refine ⟨by decide, by decide, cex5_find, hranges, ?_⟩
  rw [hranges]
  decide

/-- Witness for claim C5: on `dat2` the start is 4, widths 4, 3, 2 are
tried and rejected and width 1 accepted (`specFirstOuterLen`), and the
Scanner records `(4, 58)` from the accepted prefix; on `cex5` the start is
`2 < 4`, no width is tried, and the Scanner records the fallback `(2, 8)`. -/
theorem c5_witness :
    ((4 : Nat) ≤ 4 ∧ tryOuterLen dat2 4 56 4 = specFirstOuterLen dat2 4 56) ∧
    ((2 : Nat) < 4 ∧ tryOuterLen cex5 2 56 4 = none) ∧
    (∃ lg, scanStepD false dat2 0 = some (some (4, 58), 4 + 58, lg)) ∧
    (∃ lg, scanStepD false cex5 0 = some (some (2, 8), 2 + 8, lg)) := by
  refine ⟨⟨by decide, (c5_outer_length_widths dat2 4 56).1 (by decide)⟩,
    ⟨by decide, (c5_outer_length_widths cex5 2 56).2.1 (by decide)⟩,
    (c5_outer_length_widths dat2 4 56).2.2.1 false 0 6 4 58 1 dat2_bi dat2_find
      (by decide) (by decide),
    (c5_outer_length_widths cex5 2 56).2.2.2 false 0 4 2 0 8 cex5_bi cex5_find
      cex5_consume⟩
